import Mathlib

/-!
# Verification of the quant-bot feature/label pipeline

A shallow embedding of the core logic of the `quant-bot` repository:

* `src/ml/data/ingest_buzz.py`   — ticker extraction, sentiment rows, aggregation;
* `src/ml/data/ingest_prices.py` — per-ticker derived market features;
* `src/ml/models/train_nowcast.py` — label construction, buzz merge, time split.

Prices and sentiment scores are modelled as exact rationals (`ℚ`), dates as
integers (`ℤ`, day index with day 0 a Monday), dataframes as lists of rows in
order, and missing values (`NaN`) as `Option.none`.
-/

namespace QuantBot

/-! ### Characters and the `TICKER_RE` scanner (`ingest_buzz.py`)

`TICKER_RE = re.compile(r'(?<![A-Z0-9])\$?([A-Z]{1,5})(?![A-Z])')`, applied
with `finditer` to `text.upper()`.  `reScan` is the operational semantics of
that `finditer` call on a character list: at each position it attempts a match
(lookbehind on the previous character, optional `$`, a greedy run of 1–5
uppercase letters, lookahead that the next character is not an uppercase
letter) and, on success, continues after the consumed span.  A maximal
uppercase run of length ≥ 6 admits no match anywhere inside it, because every
shorter prefix is followed by a further uppercase letter. -/

/-- The character class `[A-Z]`. -/
def isUp (c : Char) : Bool := 'A' ≤ c && c ≤ 'Z'

/-- The character class `[0-9]`. -/
def isDig (c : Char) : Bool := '0' ≤ c && c ≤ '9'

/-- The lookbehind class `[A-Z0-9]` of `TICKER_RE`. -/
def blocks (c : Char) : Bool := isUp c || isDig c

/-- Lookbehind test at a position whose preceding character is `prev`
(`none` at the start of the text). -/
def blocksBehind : Option Char → Bool
  | none => false
  | some c => blocks c

/-- Length of the maximal prefix of consecutive uppercase letters. -/
def runLen : List Char → Nat
  | [] => 0
  | c :: cs => if isUp c then runLen cs + 1 else 0

/-- Last character of a list (`'A'` for `[]`; only applied to nonempty runs). -/
def lastCh : List Char → Char
  | [] => 'A'
  | [c] => c
  | _ :: c :: cs => lastCh (c :: cs)

/-- Operational semantics of `TICKER_RE.finditer`: the captured groups
(`m.group(1)`), in order of occurrence.  `prev` is the character preceding the
current position (`none` at the start).  The scanner attempts a match at each
position and, on success, resumes after the consumed span.  The first
argument is fuel bounding the number of remaining characters: every step
consumes at least one character, so `reScan` below instantiates it with the
text length; structural recursion on the fuel keeps the definition
kernel-computable. -/
def reScanGo : Nat → Option Char → List Char → List (List Char)
  | 0, _, _ => []
  | _ + 1, _, [] => []
  | fuel + 1, prev, c :: cs =>
    if blocksBehind prev then reScanGo fuel (some c) cs
    else if c = '$' then
      if 1 ≤ runLen cs ∧ runLen cs ≤ 5 then
        cs.take (runLen cs) ::
          reScanGo fuel (some (lastCh (cs.take (runLen cs)))) (cs.drop (runLen cs))
      else reScanGo fuel (some c) cs
    else
      if 1 ≤ runLen (c :: cs) ∧ runLen (c :: cs) ≤ 5 then
        (c :: cs).take (runLen (c :: cs)) ::
          reScanGo fuel (some (lastCh ((c :: cs).take (runLen (c :: cs)))))
            ((c :: cs).drop (runLen (c :: cs)))
      else reScanGo fuel (some c) cs

/-- All matches of `TICKER_RE.finditer` on `s`. -/
def reScan (prev : Option Char) (s : List Char) : List (List Char) :=
  reScanGo s.length prev s

/-- Declarative characterization of the same token set: a token starts at
every position whose preceding character is outside `[A-Z0-9]` and whose
maximal uppercase run has length between 1 and 5; the token is that whole run
(so its following character is never an uppercase letter, while a following
digit does not disqualify it). -/
def specScan (prev : Option Char) : List Char → List (List Char)
  | [] => []
  | c :: cs =>
    if blocksBehind prev = false ∧ isUp c = true ∧ runLen (c :: cs) ≤ 5 then
      (c :: cs).take (runLen (c :: cs)) :: specScan (some c) cs
    else specScan (some c) cs

/-- `COMMON_FALSES`, the stoplist of `ingest_buzz.py`. -/
def COMMON_FALSES : List String :=
  ["A", "I", "AM", "ALL", "FOR", "EVER", "DD", "YOLO", "CEO", "CFO",
   "OPEN", "AI", "USA", "IPO", "EPS", "HOME"]

/-- `_candidates(text)`: scan `text.upper()` with `TICKER_RE` and drop
stoplist members.  (`Char.toUpper` agrees with Python `str.upper` on ASCII,
which covers every character class the regex can accept.) -/
def candidates (text : String) : List String :=
  ((reScan none (text.data.map Char.toUpper)).map (fun t => String.mk t)).filter
    (fun t => decide (t ∉ COMMON_FALSES))

/-! ### Equivalence of the scanner with its declarative characterization -/

theorem isUp_of_mem_take_runLen :
    ∀ (l : List Char) (c : Char), c ∈ l.take (runLen l) → isUp c = true := by
  intro l
  induction l with
  | nil => intro c hc; simp [runLen] at hc
  | cons a as ih =>
    intro c hc
    by_cases ha : isUp a = true
    · simp only [runLen, ha, if_true, List.take_succ_cons, List.mem_cons] at hc
      rcases hc with rfl | hc
      · exact ha
      · exact ih c hc
    · simp [runLen, ha] at hc

theorem runLen_drop_runLen : ∀ l : List Char, runLen (l.drop (runLen l)) = 0 := by
  intro l
  induction l with
  | nil => rfl
  | cons a as ih =>
    by_cases ha : isUp a = true
    · simpa [runLen, ha] using ih
    · simp [runLen, ha]

theorem runLen_append (l₁ l₂ : List Char) (h1 : ∀ c ∈ l₁, isUp c = true)
    (h2 : runLen l₂ = 0) : runLen (l₁ ++ l₂) = l₁.length := by
  induction l₁ with
  | nil => simpa using h2
  | cons a as ih =>
    have ha : isUp a = true := h1 a (by simp)
    simp [runLen, ha, ih (fun c hc => h1 c (by simp [hc]))]

theorem specScan_blocked :
    ∀ (run : List Char), run ≠ [] → (∀ c ∈ run, isUp c = true) →
      ∀ (rest : List Char) (p : Char), isUp p = true →
        specScan (some p) (run ++ rest) = specScan (some (lastCh run)) rest := by
  intro run
  induction run with
  | nil => intro h; exact absurd rfl h
  | cons a run' ih =>
    intro _ hup rest p hp
    match run' with
    | [] =>
      simp [specScan, blocksBehind, blocks, hp, lastCh]
    | b :: run'' =>
      have hstep :
          specScan (some a) ((b :: run'') ++ rest) =
            specScan (some (lastCh (b :: run''))) rest :=
        ih (by simp) (fun c hc => hup c (by simp [hc])) rest a (hup a (by simp))
      calc specScan (some p) ((a :: b :: run'') ++ rest)
          = specScan (some a) ((b :: run'') ++ rest) := by
            simp [specScan, blocksBehind, blocks, hp]
        _ = specScan (some (lastCh (b :: run''))) rest := hstep
        _ = specScan (some (lastCh (a :: b :: run''))) rest := by rw [lastCh]

theorem specScan_run (run rest : List Char) (hne : run ≠ [])
    (hup : ∀ c ∈ run, isUp c = true) (h0 : runLen rest = 0)
    (hlen : run.length ≤ 5) (prev : Option Char)
    (hprev : blocksBehind prev = false) :
    specScan prev (run ++ rest) = run :: specScan (some (lastCh run)) rest := by
  match run with
  | a :: run' =>
    have ha : isUp a = true := hup a (by simp)
    have hrl : runLen (a :: (run' ++ rest)) = (a :: run').length := by
      rw [show a :: (run' ++ rest) = (a :: run') ++ rest by simp]
      exact runLen_append (a :: run') rest hup h0
    have hcond : blocksBehind prev = false ∧ isUp a = true ∧
        runLen (a :: (run' ++ rest)) ≤ 5 := ⟨hprev, ha, by rw [hrl]; exact hlen⟩
    have htake : (a :: (run' ++ rest)).take (runLen (a :: (run' ++ rest))) = a :: run' := by
      rw [hrl, show a :: (run' ++ rest) = (a :: run') ++ rest by simp]
      exact List.take_left (a :: run') rest
    rw [List.cons_append, specScan, if_pos hcond, htake]
    match run' with
    | [] => simp [lastCh]
    | b :: run'' =>
      rw [show lastCh (a :: b :: run'') = lastCh (b :: run'') from rfl]
      rw [specScan_blocked (b :: run'') (by simp)
        (fun c hc => hup c (by simp [hc])) rest a ha]

theorem runLen_le_length : ∀ l : List Char, runLen l ≤ l.length := by
  intro l
  induction l with
  | nil => simp [runLen]
  | cons a as ih =>
    by_cases ha : isUp a = true
    · simp [runLen, ha]; omega
    · simp [runLen, ha]

theorem reScanGo_eq_specScan : ∀ (n : Nat) (s : List Char), s.length ≤ n →
    ∀ prev, reScanGo n prev s = specScan prev s := by
  intro n
  induction n with
  | zero =>
    intro s hs prev
    have hnil : s = [] := List.eq_nil_of_length_eq_zero (Nat.le_zero.mp hs)
    subst hnil
    simp [reScanGo, specScan]
  | succ n ih =>
    intro s hs prev
    match s with
    | [] => simp [reScanGo, specScan]
    | c :: cs =>
      have hcs : cs.length ≤ n := by
        simp only [List.length_cons] at hs; omega
      rw [reScanGo]
      by_cases hb : blocksBehind prev = true
      · rw [if_pos hb, specScan, if_neg (by simp [hb]), ih cs hcs]
      · have hb' : blocksBehind prev = false := by
          cases h : blocksBehind prev
          · rfl
          · exact absurd h hb
        rw [if_neg hb]
        by_cases hc : c = '$'
        · subst hc
          rw [if_pos rfl]
          have hdol : isUp '$' = false := by decide
          by_cases hr : 1 ≤ runLen cs ∧ runLen cs ≤ 5
          · rw [if_pos hr]
            have hsplit : cs = cs.take (runLen cs) ++ cs.drop (runLen cs) :=
              (List.take_append_drop (runLen cs) cs).symm
            have hlen1 : (cs.take (runLen cs)).length = runLen cs := by
              rw [List.length_take]
              exact Nat.min_eq_left (runLen_le_length cs)
            have hne : cs.take (runLen cs) ≠ [] := by
              intro hcontr
              rw [hcontr] at hlen1
              simp at hlen1
              omega
            have hrun : specScan (some '$') cs =
                cs.take (runLen cs) ::
                  specScan (some (lastCh (cs.take (runLen cs)))) (cs.drop (runLen cs)) := by
              nth_rewrite 1 [hsplit]
              exact specScan_run (cs.take (runLen cs)) (cs.drop (runLen cs)) hne
                (isUp_of_mem_take_runLen cs) (runLen_drop_runLen cs)
                (by rw [hlen1]; exact hr.2) (some '$') (by decide)
            rw [specScan, if_neg (by simp [hdol]), hrun,
              ih (cs.drop (runLen cs)) (by rw [List.length_drop]; omega)]
          · rw [if_neg hr, specScan, if_neg (by simp [hdol]), ih cs hcs]
        · rw [if_neg hc]
          by_cases hr : 1 ≤ runLen (c :: cs) ∧ runLen (c :: cs) ≤ 5
          · rw [if_pos hr]
            have hupc : isUp c = true := by
              by_contra hcontr
              have : runLen (c :: cs) = 0 := by
                simp [runLen, hcontr]
              omega
            have hsplit : c :: cs =
                (c :: cs).take (runLen (c :: cs)) ++ (c :: cs).drop (runLen (c :: cs)) :=
              (List.take_append_drop (runLen (c :: cs)) (c :: cs)).symm
            have hlen1 : ((c :: cs).take (runLen (c :: cs))).length = runLen (c :: cs) := by
              rw [List.length_take]
              exact Nat.min_eq_left (runLen_le_length (c :: cs))
            have hne : (c :: cs).take (runLen (c :: cs)) ≠ [] := by
              intro hcontr
              rw [hcontr] at hlen1
              simp at hlen1
              omega
            have hrun : specScan prev (c :: cs) =
                (c :: cs).take (runLen (c :: cs)) ::
                  specScan (some (lastCh ((c :: cs).take (runLen (c :: cs)))))
                    ((c :: cs).drop (runLen (c :: cs))) := by
              nth_rewrite 1 [hsplit]
              exact specScan_run ((c :: cs).take (runLen (c :: cs)))
                ((c :: cs).drop (runLen (c :: cs))) hne
                (isUp_of_mem_take_runLen (c :: cs)) (runLen_drop_runLen (c :: cs))
                (by rw [hlen1]; exact hr.2) prev hb'
            rw [hrun, ih ((c :: cs).drop (runLen (c :: cs)))
              (by rw [List.length_drop]; simp only [List.length_cons]; omega)]
          · rw [if_neg hr]
            have hnotspec : ¬ (blocksBehind prev = false ∧ isUp c = true ∧
                runLen (c :: cs) ≤ 5) := by
              rintro ⟨-, hu, hle⟩
              exact hr ⟨by simp [runLen, hu], hle⟩
            rw [specScan, if_neg hnotspec, ih cs hcs]

theorem reScan_eq_specScan (s : List Char) (prev : Option Char) :
    reScan prev s = specScan prev s :=
  reScanGo_eq_specScan s.length s le_rfl prev

/-- C2 (amended): for every input text, `_candidates` returns exactly the
maximal uppercase runs of length 1–5 of the uppercased text whose preceding
character lies outside `[A-Z0-9]` (an immediately preceding `$` is allowed)
and that are not stoplist members.  The character following a returned token
is never an uppercase letter, but — contrary to the original claim — a
following digit does not disqualify a token, because the lookahead of
`TICKER_RE` is `(?![A-Z])`, not `(?![A-Z0-9])`. -/
theorem C2_candidates_exactly_spec_tokens (text : String) :
    candidates text =
      ((specScan none (text.data.map Char.toUpper)).map
        (fun t => String.mk t)).filter (fun t => decide (t ∉ COMMON_FALSES)) := by
  unfold candidates reScan
  rw [reScanGo_eq_specScan (text.data.map Char.toUpper).length
    (text.data.map Char.toUpper) le_rfl none]

/-- C2 counterexample: in the text `"AB3"` the token `"AB"` is immediately
followed by the digit `'3'`, yet `_candidates` returns it.  This refutes the
original claim that a token immediately adjacent to a digit on either side is
never returned as a candidate. -/
theorem C2_counterexample_token_before_digit :
    candidates "AB3" = ["AB"] ∧ "AB3".data.getD 2 ' ' = '3' ∧ isDig '3' = true := by
  decide

/-! ### Buzz ingestion pipeline (`ingest_buzz.run`)

Network fetch and feed parsing are external collaborators: the model receives
the successfully parsed feeds as a list of `(url, entries)` pairs (a feed that
raises is simply absent), and the VADER sentiment analyzer as an abstract
scoring function `sent : String → ℚ`.  File output is modelled as the value
of the written table. -/

/-- The ASCII part of the Python regex class `\s` (space, tab, newline,
carriage return, vertical tab, form feed). -/
def isWs (c : Char) : Bool :=
  c = ' ' || c = '\t' || c = '\n' || c = '\r' || c = '\x0b' || c = '\x0c'

/-- Collapse each run of consecutive spaces to a single space. -/
def squeeze : List Char → List Char
  | [] => []
  | [c] => [c]
  | a :: b :: rest =>
    if a = ' ' ∧ b = ' ' then squeeze (b :: rest) else a :: squeeze (b :: rest)

/-- `re.sub(r"\s+", " ", s)`: map every whitespace character to a space, then
collapse runs — each maximal whitespace run becomes one space. -/
def collapseWs (s : List Char) : List Char :=
  squeeze (s.map (fun c => if isWs c then ' ' else c))

/-- Python `str.strip()` (whitespace at both ends removed). -/
def stripChars (s : List Char) : List Char :=
  ((s.dropWhile isWs).reverse.dropWhile isWs).reverse

/-- `_clean(s)`: whitespace-normalize and strip (the `None`/empty early
return yields the same empty string as the formula). -/
def clean (s : String) : String :=
  String.mk (stripChars (collapseWs s.data))

/-- A parsed feed entry: resolved title and summary text (`entry.get` with
missing fields already resolved to `""`, and `summary or description`
already chosen — both are feed-library concerns external to this core). -/
structure Entry where
  title : String
  summary : String
deriving DecidableEq

/-- `text = f"{title}. {summary}".strip()` built from the cleaned parts. -/
def docText (e : Entry) : String :=
  String.mk (stripChars (clean e.title ++ ". " ++ clean e.summary).data)

/-- One raw mention row appended by `run` before aggregation. -/
structure MentionRow where
  date : String
  ticker : String
  sentiment : ℚ
  source : String
  title : String
deriving DecidableEq

/-- Keep the first occurrence of each element, dropping later duplicates. -/
def dedupFirst {α : Type} [DecidableEq α] : List α → List α
  | [] => []
  | a :: as => a :: (dedupFirst as).filter (fun x => decide (x ≠ a))

/-- Code-point lexicographic comparison of character lists (Python string
ordering). -/
def charsLe : List Char → List Char → Bool
  | [], _ => true
  | _ :: _, [] => false
  | a :: as, b :: bs => if a = b then charsLe as bs else decide (a < b)

/-- Python `sorted` order on strings. -/
def strLe (a b : String) : Prop := charsLe a.data b.data = true

instance : DecidableRel strLe :=
  fun a b => inferInstanceAs (Decidable (charsLe a.data b.data = true))

/-- Lexicographic order on `(date, ticker)` group keys. -/
def keyLe (a b : String × String) : Prop :=
  if a.1 = b.1 then strLe a.2 b.2 else strLe a.1 b.1

instance : DecidableRel keyLe := fun a b => by
  unfold keyLe
  infer_instance

/-- `found = {t for t in _candidates(text) if t in uni}`: the distinct
matched universe tickers of one document.  A Python `set` iterates in
unspecified order; the model fixes the sorted order, which is immaterial to
every aggregate computed from the rows (counts, means, source sets). -/
def found (uni : List String) (text : String) : List String :=
  List.insertionSort strLe
    (dedupFirst ((candidates text).filter (fun t => decide (t ∈ uni))))

/-- The mention rows one document (feed entry) contributes. -/
def docRows (outDate : String) (uni : List String) (sent : String → ℚ)
    (url : String) (e : Entry) : List MentionRow :=
  let text := docText e
  if text = "" then []
  else
    (found uni text).map (fun t =>
      ⟨outDate, t, sent text, url, String.mk ((clean e.title).data.take 200)⟩)

/-- The raw mention rows accumulated by `run` over all feeds and entries. -/
def mentionRows (outDate : String) (uni : List String) (sent : String → ℚ)
    (feeds : List (String × List Entry)) : List MentionRow :=
  feeds.flatMap (fun p => p.2.flatMap (docRows outDate uni sent p.1))

/-- One aggregated output row of `data/buzz/YYYY-MM-DD.csv`. -/
structure AggRow where
  date : String
  ticker : String
  mentions : ℕ
  avgSentiment : ℚ
  sources : String
deriving DecidableEq

/-- `df.groupby(["date","ticker"]).agg(...)` followed by `reset_index`:
group keys in sorted order; `mentions` = row count, `avg_sentiment` = mean
sentiment, `sources` = sorted deduplicated source set joined with `";"`. -/
def aggregate (rows : List MentionRow) : List AggRow :=
  (List.insertionSort keyLe
      (dedupFirst (rows.map (fun r => (r.date, r.ticker))))).map (fun k =>
    let g := rows.filter (fun r => decide (r.date = k.1 ∧ r.ticker = k.2))
    ⟨k.1, k.2, g.length,
      (g.map (fun r => r.sentiment)).sum / (g.length : ℚ),
      String.intercalate ";"
        (List.insertionSort strLe (dedupFirst (g.map (fun r => r.source))))⟩)

/-- The table `run` writes to `data/buzz/{out_date}.csv`. -/
structure RunOut where
  cols : List String
  rows : List AggRow
deriving DecidableEq

/-- `run`: collect mention rows; if none, write the header-only table with
the declared schema, else write the aggregate. -/
def buzzRun (outDate : String) (uni : List String) (sent : String → ℚ)
    (feeds : List (String × List Entry)) : RunOut :=
  let rows := mentionRows outDate uni sent feeds
  if rows = [] then
    ⟨["date", "ticker", "mentions", "avg_sentiment", "sources"], []⟩
  else
    ⟨["date", "ticker", "mentions", "avg_sentiment", "sources"], aggregate rows⟩

/-! ### Lemmas about deduplication -/

theorem mem_dedupFirst {α : Type} [DecidableEq α] :
    ∀ (l : List α) (x : α), x ∈ dedupFirst l ↔ x ∈ l := by
  intro l
  induction l with
  | nil => intro x; simp [dedupFirst]
  | cons a as ih =>
    intro x
    by_cases hx : x = a
    · subst hx; simp [dedupFirst]
    · simp [dedupFirst, hx, List.mem_filter, ih]

theorem nodup_dedupFirst {α : Type} [DecidableEq α] :
    ∀ l : List α, (dedupFirst l).Nodup := by
  intro l
  induction l with
  | nil => simp [dedupFirst]
  | cons a as ih =>
    refine List.Nodup.cons ?_ (ih.filter _)
    intro hmem
    have := List.of_mem_filter hmem
    simp at this

/-- C6: each document contributes at most one mention row per distinct
matched universe ticker (its ticker list has no duplicates), and every such
row carries the document's single compound sentiment score, its source feed
and the run date; moreover every aggregate row for a `(date, ticker)` group
has `mentions` equal to the number of contributing mention rows,
`avg_sentiment` equal to their arithmetic mean, and `sources` equal to the
sorted deduplicated contributing source feeds joined with `";"`. -/
theorem C6_buzz_mentions_and_aggregation (outDate : String) (uni : List String)
    (sent : String → ℚ) (feeds : List (String × List Entry)) :
    (∀ url e, ((docRows outDate uni sent url e).map (fun r => r.ticker)).Nodup ∧
      ∀ r ∈ docRows outDate uni sent url e,
        r.sentiment = sent (docText e) ∧ r.source = url ∧ r.date = outDate) ∧
    (∀ a ∈ aggregate (mentionRows outDate uni sent feeds),
      a.mentions = ((mentionRows outDate uni sent feeds).filter
        (fun r => decide (r.date = a.date ∧ r.ticker = a.ticker))).length ∧
      a.avgSentiment =
        (((mentionRows outDate uni sent feeds).filter
          (fun r => decide (r.date = a.date ∧ r.ticker = a.ticker))).map
            (fun r => r.sentiment)).sum / (a.mentions : ℚ) ∧
      a.sources = String.intercalate ";" (List.insertionSort strLe
        (dedupFirst (((mentionRows outDate uni sent feeds).filter
          (fun r => decide (r.date = a.date ∧ r.ticker = a.ticker))).map
            (fun r => r.source))))) := by
  constructor
  · intro url e
    constructor
    · by_cases h : docText e = ""
      · simp [docRows, h]
      · have hrows : docRows outDate uni sent url e =
            (found uni (docText e)).map (fun t =>
              (⟨outDate, t, sent (docText e), url,
                String.mk ((clean e.title).data.take 200)⟩ : MentionRow)) := by
          simp only [docRows]
          rw [if_neg h]
        rw [hrows, List.map_map]
        have hmapid : ((fun r : MentionRow => r.ticker) ∘ (fun t =>
            (⟨outDate, t, sent (docText e), url,
              String.mk ((clean e.title).data.take 200)⟩ : MentionRow))) = id := by
          funext t
          rfl
        rw [hmapid, List.map_id]
        exact (List.perm_insertionSort strLe _).nodup_iff.mpr (nodup_dedupFirst _)
    · intro r hr
      simp only [docRows] at hr
      by_cases h : docText e = ""
      · rw [if_pos h] at hr; simp at hr
      · rw [if_neg h] at hr
        rcases List.mem_map.mp hr with ⟨t, _, rfl⟩
        exact ⟨rfl, rfl, rfl⟩
  · intro a ha
    simp only [aggregate, List.mem_map] at ha
    obtain ⟨k, hk, rfl⟩ := ha
    exact ⟨rfl, rfl, rfl⟩

/-- C9: when no document yields any universe mention, `run` still succeeds
and writes a header-only table with exactly the declared columns
`date, ticker, mentions, avg_sentiment, sources` in that order and zero
rows. -/
theorem C9_empty_buzz_header_only (outDate : String) (uni : List String)
    (sent : String → ℚ) (feeds : List (String × List Entry))
    (h : mentionRows outDate uni sent feeds = []) :
    buzzRun outDate uni sent feeds =
      ⟨["date", "ticker", "mentions", "avg_sentiment", "sources"], []⟩ := by
  simp [buzzRun, h]

/-- C10: the stoplist takes precedence over the universe: a `COMMON_FALSES`
member is never the ticker of any mention row, even when it belongs to the
loaded universe, because `_candidates` removes stoplist tokens before `run`
intersects the candidates with the universe. -/
theorem C10_stoplist_precedes_universe (outDate : String) (uni : List String)
    (sent : String → ℚ) (feeds : List (String × List Entry)) (t : String)
    (ht : t ∈ COMMON_FALSES) :
    t ∉ (mentionRows outDate uni sent feeds).map (fun r => r.ticker) := by
  intro hmem
  rcases List.mem_map.mp hmem with ⟨r, hr, hticker⟩
  rcases List.mem_flatMap.mp hr with ⟨p, _, hr2⟩
  rcases List.mem_flatMap.mp hr2 with ⟨e, _, hr3⟩
  simp only [docRows] at hr3
  by_cases htext : docText e = ""
  · rw [if_pos htext] at hr3; simp at hr3
  · rw [if_neg htext] at hr3
    rcases List.mem_map.mp hr3 with ⟨tk, htk, rfl⟩
    have h1 : tk ∈ dedupFirst ((candidates (docText e)).filter
        (fun x => decide (x ∈ uni))) :=
      (List.mem_insertionSort strLe).mp htk
    have h2 := (mem_dedupFirst _ _).mp h1
    have h3 : tk ∈ candidates (docText e) := List.mem_of_mem_filter h2
    unfold candidates at h3
    have h4 := List.of_mem_filter h3
    simp only [decide_eq_true_eq] at h4
    simp only at hticker
    exact h4 (hticker ▸ ht)

/-- Witness for C6: one feed with one document mentioning `TSLA` twice,
sentiment 1/2, yields the single aggregate row with one mention. -/
theorem C6_buzz_witness :
    ((⟨"2025-10-05", "TSLA", 1, 1 / 2, "u"⟩ : AggRow) ∈
      aggregate (mentionRows "2025-10-05" ["TSLA"] (fun _ => (1 : ℚ) / 2)
        [("u", [⟨"TSLA TSLA rally", ""⟩])])) ∧
    ((⟨"2025-10-05", "TSLA", 1, 1 / 2, "u"⟩ : AggRow).mentions =
      ((mentionRows "2025-10-05" ["TSLA"] (fun _ => (1 : ℚ) / 2)
        [("u", [⟨"TSLA TSLA rally", ""⟩])]).filter
          (fun r => decide (r.date = (⟨"2025-10-05", "TSLA", 1, 1 / 2, "u"⟩ : AggRow).date ∧
            r.ticker = (⟨"2025-10-05", "TSLA", 1, 1 / 2, "u"⟩ : AggRow).ticker))).length ∧
      (⟨"2025-10-05", "TSLA", 1, 1 / 2, "u"⟩ : AggRow).avgSentiment =
        (((mentionRows "2025-10-05" ["TSLA"] (fun _ => (1 : ℚ) / 2)
          [("u", [⟨"TSLA TSLA rally", ""⟩])]).filter
            (fun r => decide (r.date = (⟨"2025-10-05", "TSLA", 1, 1 / 2, "u"⟩ : AggRow).date ∧
              r.ticker = (⟨"2025-10-05", "TSLA", 1, 1 / 2, "u"⟩ : AggRow).ticker))).map
              (fun r => r.sentiment)).sum /
          ((⟨"2025-10-05", "TSLA", 1, 1 / 2, "u"⟩ : AggRow).mentions : ℚ) ∧
      (⟨"2025-10-05", "TSLA", 1, 1 / 2, "u"⟩ : AggRow).sources =
        String.intercalate ";" (List.insertionSort strLe
          (dedupFirst (((mentionRows "2025-10-05" ["TSLA"] (fun _ => (1 : ℚ) / 2)
            [("u", [⟨"TSLA TSLA rally", ""⟩])]).filter
              (fun r => decide (r.date = (⟨"2025-10-05", "TSLA", 1, 1 / 2, "u"⟩ : AggRow).date ∧
                r.ticker = (⟨"2025-10-05", "TSLA", 1, 1 / 2, "u"⟩ : AggRow).ticker))).map
                (fun r => r.source))))) :=
  ⟨by with_unfolding_all decide,
    (C6_buzz_mentions_and_aggregation "2025-10-05" ["TSLA"] (fun _ => (1 : ℚ) / 2)
      [("u", [⟨"TSLA TSLA rally", ""⟩])]).2 _ (by with_unfolding_all decide)⟩

/-- Witness for C9: a document with no universe mention produces the
header-only table. -/
theorem C9_empty_buzz_witness :
    (mentionRows "2025-10-06" ["AAPL"] (fun _ => (0 : ℚ))
      [("u", [⟨"hello", "world"⟩])] = []) ∧
    buzzRun "2025-10-06" ["AAPL"] (fun _ => (0 : ℚ)) [("u", [⟨"hello", "world"⟩])] =
      ⟨["date", "ticker", "mentions", "avg_sentiment", "sources"], []⟩ :=
  ⟨by with_unfolding_all decide,
    C9_empty_buzz_header_only "2025-10-06" ["AAPL"] (fun _ => (0 : ℚ))
      [("u", [⟨"hello", "world"⟩])] (by with_unfolding_all decide)⟩

/-- Witness for C10: `"AI"` is in the stoplist and, even with `"AI"` in the
universe and a document mentioning it, no mention row carries it. -/
theorem C10_stoplist_witness :
    ("AI" ∈ COMMON_FALSES) ∧
    "AI" ∉ (mentionRows "2025-10-07" ["AI"] (fun _ => (0 : ℚ))
      [("u", [⟨"AI is eating the world", ""⟩])]).map (fun r => r.ticker) :=
  ⟨by decide,
    C10_stoplist_precedes_universe "2025-10-07" ["AI"] (fun _ => (0 : ℚ))
      [("u", [⟨"AI is eating the world", ""⟩])] "AI" (by decide)⟩

/-! ### Market feature builder (`ingest_prices._compute_features`)

The input frame has columns `date, ticker, open, high, low, close, volume`;
every derived column is computed from `close` alone, so the model keeps the
fields the feature computations read (plus the group/sort keys). -/

/-- One input price bar (the fields `_compute_features` reads). -/
structure Bar where
  ticker : String
  date : ℤ
  close : ℚ
deriving DecidableEq

/-- Default bar for positional lookups. -/
def dBar : Bar := ⟨"", 0, 0⟩

/-- `groupby("ticker")["close"].pct_change(k, fill_method=None)` on one
ticker group: `r_k[i] = close[i]/close[i-k] - 1`, null while fewer than `k`
prior observations exist. -/
def pctChange (k : ℕ) (closes : List ℚ) : List (Option ℚ) :=
  (List.range closes.length).map (fun i =>
    if k ≤ i then some (closes.getD i 0 / closes.getD (i - k) 0 - 1) else none)

/-- The trailing `rolling(w)` window ending at index `i`: the last
`min (i+1) w` entries. -/
def window (w : ℕ) (xs : List (Option ℚ)) (i : ℕ) : List (Option ℚ) :=
  (xs.take (i + 1)).drop (i + 1 - w)

/-- Mean of a list of rationals (callers guard against the empty list). -/
def meanQ (l : List ℚ) : ℚ := l.sum / (l.length : ℚ)

/-- Sample variance with one delta degree of freedom (the square of the
pandas `std`).  The model stores the variance: the standard deviation is its
(total, order-preserving) square root, irrational in general, and every
claim about `vol20` concerns only definedness, which coincides. -/
def sampleVar (l : List ℚ) : ℚ :=
  (l.map (fun x => (x - meanQ l) ^ 2)).sum / ((l.length : ℚ) - 1)

/-- `rolling(20).std()` over the `r1` column (`min_periods` defaults to the
window size, and null entries in the window do not count as observations). -/
def rollingVar20 (xs : List (Option ℚ)) : List (Option ℚ) :=
  (List.range xs.length).map (fun i =>
    if 20 ≤ ((window 20 xs i).filterMap id).length then
      some (sampleVar ((window 20 xs i).filterMap id))
    else none)

/-- Maximum of a nonempty list (0 for `[]`, which callers exclude). -/
def foldMax : List ℚ → ℚ
  | [] => 0
  | x :: xs => xs.foldl max x

/-- Minimum of a nonempty list (0 for `[]`, which callers exclude). -/
def foldMin : List ℚ → ℚ
  | [] => 0
  | x :: xs => xs.foldl min x

/-- `rolling(252, min_periods=20).max()` over one ticker's close column
(closes carry no nulls, so the observation count is the window length). -/
def rollMax252 (closes : List ℚ) : List (Option ℚ) :=
  (List.range closes.length).map (fun i =>
    if 20 ≤ ((closes.take (i + 1)).drop (i + 1 - 252)).length then
      some (foldMax ((closes.take (i + 1)).drop (i + 1 - 252)))
    else none)

/-- `rolling(252, min_periods=20).min()` over one ticker's close column. -/
def rollMin252 (closes : List ℚ) : List (Option ℚ) :=
  (List.range closes.length).map (fun i =>
    if 20 ≤ ((closes.take (i + 1)).drop (i + 1 - 252)).length then
      some (foldMin ((closes.take (i + 1)).drop (i + 1 - 252)))
    else none)

/-- `series.diff()` without its leading null entry:
`diffs[i] = close[i+1] - close[i]`. -/
def diffs : List ℚ → List ℚ
  | [] => []
  | [_] => []
  | a :: b :: rest => (b - a) :: diffs (b :: rest)

/-- Value recursion of `ewm(alpha=α, adjust=False).mean()`:
`eₙ = (1-α)·eₙ₋₁ + α·xₙ`. -/
def ewmRecAux (α : ℚ) (prev : ℚ) : List ℚ → List ℚ
  | [] => []
  | x :: xs =>
    ((1 - α) * prev + α * x) :: ewmRecAux α ((1 - α) * prev + α * x) xs

/-- `ewm(alpha=α, adjust=False).mean()` values: the first observation seeds
the average. -/
def ewmRec (α : ℚ) : List ℚ → List ℚ
  | [] => []
  | x :: xs => x :: ewmRecAux α x xs

/-- `_rsi(series, window=14)` on one ticker's close series.  `series.diff()`
is null at index 0, so with `min_periods=14` the smoothed averages (whose
value recursion starts at the first non-null delta) are masked to null for
indices `t < 14`; `avg_loss.replace(0, np.nan)` turns a zero average loss
into null, so `rs` and hence the RSI are null there instead of raising a
division error. -/
def rsi (closes : List ℚ) : List (Option ℚ) :=
  (List.range closes.length).map (fun t =>
    if 14 ≤ t then
      if (ewmRec (1 / 14) ((diffs closes).map (fun d => max (-d) 0))).getD (t - 1) 0 = 0 then
        none
      else
        some (100 - 100 /
          (1 + (ewmRec (1 / 14) ((diffs closes).map (fun d => max d 0))).getD (t - 1) 0 /
            (ewmRec (1 / 14) ((diffs closes).map (fun d => max (-d) 0))).getD (t - 1) 0))
    else none)

/-- One output row of `_compute_features`. -/
structure FeatRow where
  ticker : String
  date : ℤ
  close : ℚ
  r1 : Option ℚ
  r5 : Option ℚ
  r20 : Option ℚ
  vol20Var : Option ℚ
  rsi14 : Option ℚ
  hi52d : Option ℚ
  lo52d : Option ℚ
  hi52dDist : Option ℚ
  lo52dDist : Option ℚ
deriving DecidableEq

/-- Default feature row for positional lookups. -/
def dFeat : FeatRow := ⟨"", 0, 0, none, none, none, none, none, none, none, none, none⟩

/-- The derived columns `_compute_features` assigns for one ticker's sorted
bars (every column is a `groupby("ticker")` transform, so it only reads this
group); `hi52d_dist = close/hi52d - 1` and `lo52d_dist = close/lo52d - 1`
propagate nulls of the rolling extremes. -/
def perTicker (bars : List Bar) : List FeatRow :=
  (List.range bars.length).map (fun i =>
    ⟨(bars.getD i dBar).ticker, (bars.getD i dBar).date, (bars.getD i dBar).close,
      (pctChange 1 (bars.map (fun b => b.close))).getD i none,
      (pctChange 5 (bars.map (fun b => b.close))).getD i none,
      (pctChange 20 (bars.map (fun b => b.close))).getD i none,
      (rollingVar20 (pctChange 1 (bars.map (fun b => b.close)))).getD i none,
      (rsi (bars.map (fun b => b.close))).getD i none,
      (rollMax252 (bars.map (fun b => b.close))).getD i none,
      (rollMin252 (bars.map (fun b => b.close))).getD i none,
      ((rollMax252 (bars.map (fun b => b.close))).getD i none).map
        (fun m => (bars.getD i dBar).close / m - 1),
      ((rollMin252 (bars.map (fun b => b.close))).getD i none).map
        (fun m => (bars.getD i dBar).close / m - 1)⟩)

/-- `df.sort_values(["ticker","date"])` key order. -/
def barLe (a b : Bar) : Prop :=
  if a.ticker = b.ticker then a.date ≤ b.date else strLe a.ticker b.ticker

instance : DecidableRel barLe := fun a b => by
  unfold barLe
  infer_instance

/-- `df.sort_values(["ticker","date"])`. -/
def sortBars (df : List Bar) : List Bar := List.insertionSort barLe df

/-- `_compute_features`: sort by `(ticker, date)`; every derived column is a
per-ticker transform aligned back to the sorted row order, so the resulting
frame is the concatenation of the per-ticker feature groups (groups are
contiguous after the sort, in first-appearance order of the sorted
tickers). -/
def computeFeatures (df : List Bar) : List FeatRow :=
  (dedupFirst ((sortBars df).map (fun b => b.ticker))).flatMap (fun t =>
    perTicker ((sortBars df).filter (fun b => decide (b.ticker = t))))

/-! ### Helper lemmas for the feature builder -/

theorem getD_range_map {β : Type} (f : ℕ → β) (n i : ℕ) (d : β) (h : i < n) :
    ((List.range n).map f).getD i d = f i := by
  rw [List.getD_eq_getElem?_getD, List.getElem?_map, List.getElem?_range h]
  rfl

theorem getD_nonneg (l : List ℚ) (h : ∀ x ∈ l, 0 ≤ x) (i : ℕ) : 0 ≤ l.getD i 0 := by
  rw [List.getD_eq_getElem?_getD]
  cases hx : l[i]? with
  | none => simp
  | some x => simpa using h x (List.getElem?_mem hx)

theorem getD_mem_of_lt {α : Type} (l : List α) (i : ℕ) (d : α) (h : i < l.length) :
    l.getD i d ∈ l := by
  rw [List.getD_eq_getElem?_getD, List.getElem?_eq_getElem h]
  exact List.getElem_mem h

theorem ewmRecAux_nonneg (α : ℚ) (h0 : 0 ≤ α) (h1 : α ≤ 1) :
    ∀ (xs : List ℚ) (prev : ℚ), 0 ≤ prev → (∀ x ∈ xs, 0 ≤ x) →
      ∀ y ∈ ewmRecAux α prev xs, 0 ≤ y := by
  intro xs
  induction xs with
  | nil => intro prev _ _ y hy; simp [ewmRecAux] at hy
  | cons x xs ih =>
    intro prev hp hxs y hy
    have hx : 0 ≤ x := hxs x (by simp)
    have hstep : 0 ≤ (1 - α) * prev + α * x :=
      add_nonneg (mul_nonneg (by linarith) hp) (mul_nonneg h0 hx)
    simp only [ewmRecAux, List.mem_cons] at hy
    rcases hy with rfl | hy
    · exact hstep
    · exact ih _ hstep (fun z hz => hxs z (by simp [hz])) y hy

theorem ewmRec_nonneg (α : ℚ) (h0 : 0 ≤ α) (h1 : α ≤ 1) (xs : List ℚ)
    (hxs : ∀ x ∈ xs, 0 ≤ x) : ∀ y ∈ ewmRec α xs, 0 ≤ y := by
  cases xs with
  | nil => intro y hy; simp [ewmRec] at hy
  | cons x xs =>
    intro y hy
    simp only [ewmRec, List.mem_cons] at hy
    rcases hy with rfl | hy
    · exact hxs y (by simp)
    · exact ewmRecAux_nonneg α h0 h1 xs x (hxs x (by simp))
        (fun z hz => hxs z (by simp [hz])) y hy

theorem foldl_max_bounds : ∀ (l : List ℚ) (a : ℚ),
    a ≤ l.foldl max a ∧ ∀ x ∈ l, x ≤ l.foldl max a := by
  intro l
  induction l with
  | nil => intro a; exact ⟨le_rfl, by simp⟩
  | cons b bs ih =>
    intro a
    constructor
    · exact le_trans (le_max_left a b) (ih (max a b)).1
    · intro x hx
      rcases List.mem_cons.mp hx with rfl | hx
      · exact le_trans (le_max_right a x) (ih (max a x)).1
      · exact (ih (max a b)).2 x hx

theorem le_foldMax (l : List ℚ) (x : ℚ) (hx : x ∈ l) : x ≤ foldMax l := by
  cases l with
  | nil => simp at hx
  | cons a as =>
    rcases List.mem_cons.mp hx with rfl | hx
    · exact (foldl_max_bounds as x).1
    · exact (foldl_max_bounds as a).2 x hx

theorem foldl_min_bounds : ∀ (l : List ℚ) (a : ℚ),
    l.foldl min a ≤ a ∧ ∀ x ∈ l, l.foldl min a ≤ x := by
  intro l
  induction l with
  | nil => intro a; exact ⟨le_rfl, by simp⟩
  | cons b bs ih =>
    intro a
    constructor
    · exact le_trans (ih (min a b)).1 (min_le_left a b)
    · intro x hx
      rcases List.mem_cons.mp hx with rfl | hx
      · exact le_trans (ih (min a x)).1 (min_le_right a x)
      · exact (ih (min a b)).2 x hx

theorem foldMin_le (l : List ℚ) (x : ℚ) (hx : x ∈ l) : foldMin l ≤ x := by
  cases l with
  | nil => simp at hx
  | cons a as =>
    rcases List.mem_cons.mp hx with rfl | hx
    · exact (foldl_min_bounds as x).1
    · exact (foldl_min_bounds as a).2 x hx

theorem foldl_min_pos : ∀ (l : List ℚ) (a : ℚ), 0 < a → (∀ x ∈ l, 0 < x) →
    0 < l.foldl min a := by
  intro l
  induction l with
  | nil => intro a ha _; exact ha
  | cons b bs ih =>
    intro a ha hl
    exact ih (min a b) (lt_min ha (hl b (by simp))) (fun x hx => hl x (by simp [hx]))

theorem foldMin_pos (l : List ℚ) (hne : l ≠ []) (h : ∀ x ∈ l, 0 < x) :
    0 < foldMin l := by
  cases l with
  | nil => exact absurd rfl hne
  | cons a as =>
    exact foldl_min_pos as a (h a (by simp)) (fun x hx => h x (by simp [hx]))

theorem getD_mem_drop_take (closes : List ℚ) (i m : ℕ) (him : m ≤ i)
    (hin : i < closes.length) :
    closes.getD i 0 ∈ (closes.take (i + 1)).drop m := by
  have hsome : closes[i]? = some (closes.getD i 0) := by
    rw [List.getElem?_eq_getElem hin, List.getD_eq_getElem?_getD,
      List.getElem?_eq_getElem hin]
    rfl
  have h1 : ((closes.take (i + 1)).drop m)[i - m]? = some (closes.getD i 0) := by
    rw [List.getElem?_drop]
    have hmadd : m + (i - m) = i := by omega
    rw [hmadd, List.getElem?_take]
    simp only [Nat.lt_succ_self, if_true]
    exact hsome
  exact List.getElem?_mem h1

theorem mem_of_mem_drop_take (closes : List ℚ) (i m : ℕ) (x : ℚ)
    (hx : x ∈ (closes.take (i + 1)).drop m) : x ∈ closes :=
  List.mem_of_mem_take (List.mem_of_mem_drop hx)

theorem sum_map_filter_eq {α : Type} (f : α → ℕ) (p : α → Bool) (l : List α)
    (h : ∀ x ∈ l, p x = false → f x = 0) :
    ((l.filter p).map f).sum = (l.map f).sum := by
  induction l with
  | nil => rfl
  | cons a as ih =>
    cases hp : p a
    · have hfa : f a = 0 := h a (by simp) hp
      simp [List.filter_cons, hp, hfa, ih (fun x hx hpx => h x (by simp [hx]) hpx)]
    · simp [List.filter_cons, hp, ih (fun x hx hpx => h x (by simp [hx]) hpx)]

theorem length_filter_partition {α : Type} (p : α → Bool) (l : List α) :
    (l.filter p).length + (l.filter (fun x => !(p x))).length = l.length := by
  induction l with
  | nil => rfl
  | cons a as ih =>
    cases hp : p a <;> simp [List.filter_cons, hp] <;> omega

theorem sum_groups_length {α β : Type} [DecidableEq β] (key : α → β) :
    ∀ (keys : List β) (s : List α), (∀ b ∈ s, key b ∈ keys) →
      ((dedupFirst keys).map
        (fun t => (s.filter (fun b => decide (key b = t))).length)).sum = s.length := by
  intro keys
  induction keys with
  | nil =>
    intro s hs
    cases s with
    | nil => rfl
    | cons b bs => exact absurd (hs b (by simp)) (by simp)
  | cons a as ih =>
    intro s hs
    have hstep : dedupFirst (a :: as) =
        a :: (dedupFirst as).filter (fun x => decide (x ≠ a)) := rfl
    rw [hstep, List.map_cons, List.sum_cons]
    have hfilter2 :
        ((dedupFirst as).filter (fun x => decide (x ≠ a))).map
            (fun t => (s.filter (fun b => decide (key b = t))).length) =
          ((dedupFirst as).filter (fun x => decide (x ≠ a))).map
            (fun t => ((s.filter (fun b => !(decide (key b = a)))).filter
              (fun b => decide (key b = t))).length) := by
      apply List.map_congr_left
      intro t htmem
      have hta : t ≠ a := by simpa using List.of_mem_filter htmem
      congr 1
      rw [List.filter_filter]
      apply List.filter_congr
      intro b _
      by_cases hbt : key b = t
      · simp [hbt, hta]
      · simp [hbt]
    rw [hfilter2]
    have hdrop :
        (((dedupFirst as).filter (fun x => decide (x ≠ a))).map
          (fun t => ((s.filter (fun b => !(decide (key b = a)))).filter
            (fun b => decide (key b = t))).length)).sum =
        ((dedupFirst as).map
          (fun t => ((s.filter (fun b => !(decide (key b = a)))).filter
            (fun b => decide (key b = t))).length)).sum := by
      apply sum_map_filter_eq
      intro t _ htfalse
      have hta : t = a := by simpa using htfalse
      have hnilg : (s.filter (fun b => !(decide (key b = a)))).filter
          (fun b => decide (key b = t)) = [] := by
        apply List.filter_eq_nil_iff.mpr
        intro b hb
        have hbna : ¬ key b = a := by simpa using List.of_mem_filter hb
        simp [hta, hbna]
      rw [hnilg]
      rfl
    rw [hdrop, ih (s.filter (fun b => !(decide (key b = a))))]
    · exact length_filter_partition (fun b => decide (key b = a)) s
    · intro b hb
      have hmem := List.mem_of_mem_filter hb
      have hne : ¬ key b = a := by simpa using List.of_mem_filter hb
      have := hs b hmem
      simp only [List.mem_cons] at this
      rcases this with heq | hmem2
      · exact absurd heq hne
      · exact hmem2

theorem perTicker_length (bars : List Bar) : (perTicker bars).length = bars.length := by
  simp [perTicker]

theorem perTicker_ticker_eq (bars : List Bar) (t' : String)
    (h : ∀ b ∈ bars, b.ticker = t') : ∀ r ∈ perTicker bars, r.ticker = t' := by
  intro r hr
  simp only [perTicker, List.mem_map, List.mem_range] at hr
  obtain ⟨i, hi, rfl⟩ := hr
  exact h _ (getD_mem_of_lt bars i dBar hi)

theorem filter_flatMap_groups (ts : List String) (hnd : ts.Nodup) (s : List Bar)
    (t : String) :
    ((ts.flatMap (fun t' =>
        perTicker (s.filter (fun b => decide (b.ticker = t'))))).filter
      (fun r => decide (r.ticker = t))) =
    if t ∈ ts then perTicker (s.filter (fun b => decide (b.ticker = t))) else [] := by
  induction ts with
  | nil => simp
  | cons a ts ih =>
    rcases List.nodup_cons.mp hnd with ⟨ha, hnd'⟩
    rw [List.flatMap_cons, List.filter_append, ih hnd']
    have hgroup : ∀ r ∈ perTicker (s.filter (fun b => decide (b.ticker = a))),
        r.ticker = a :=
      perTicker_ticker_eq _ a (fun b hb => by simpa using List.of_mem_filter hb)
    by_cases hta : t = a
    · subst hta
      have h1 : (perTicker (s.filter (fun b => decide (b.ticker = t)))).filter
          (fun r => decide (r.ticker = t)) =
          perTicker (s.filter (fun b => decide (b.ticker = t))) :=
        List.filter_eq_self.mpr (fun r hr => by simp [hgroup r hr])
      rw [h1, if_neg ha, List.append_nil, if_pos (by simp)]
    · have h1 : (perTicker (s.filter (fun b => decide (b.ticker = a)))).filter
          (fun r => decide (r.ticker = t)) = [] :=
        List.filter_eq_nil_iff.mpr (fun r hr => by
          simp only [hgroup r hr, decide_eq_true_eq]
          exact fun h => hta h.symm)
      rw [h1, List.nil_append]
      by_cases hts : t ∈ ts
      · rw [if_pos hts, if_pos (by simp [hts])]
      · rw [if_neg hts, if_neg (by simp [hta, hts])]

theorem computeFeatures_filter_group (df : List Bar) (t : String) :
    (computeFeatures df).filter (fun r => decide (r.ticker = t)) =
      perTicker ((sortBars df).filter (fun b => decide (b.ticker = t))) := by
  unfold computeFeatures
  rw [filter_flatMap_groups _ (nodup_dedupFirst _) _ t]
  by_cases ht : t ∈ dedupFirst ((sortBars df).map (fun b => b.ticker))
  · rw [if_pos ht]
  · rw [if_neg ht]
    have hnil : (sortBars df).filter (fun b => decide (b.ticker = t)) = [] := by
      apply List.filter_eq_nil_iff.mpr
      intro b hb
      simp only [decide_eq_true_eq]
      intro hbt
      exact ht ((mem_dedupFirst _ _).mpr (List.mem_map.mpr ⟨b, hb, hbt⟩))
    rw [hnil]
    rfl

theorem getD_opt_none_of_ge {α : Type} (l : List (Option α)) (i : ℕ)
    (h : l.length ≤ i) : l.getD i none = none :=
  List.getD_eq_default l none h

/-- C4: `_rsi` is total on every per-ticker close series (it returns a column
of the same length, never raising): the value is null at every index before
the 14-observation warm-up completes; whenever the smoothed average loss is
zero, `replace(0, nan)` makes the entry null instead of a division-by-zero
error; and every defined value lies in the interval `[0, 100]`. -/
theorem C4_rsi_warmup_guard_and_bounds (closes : List ℚ) :
    ((rsi closes).length = closes.length) ∧
    (∀ t, t < 14 → (rsi closes).getD t none = none) ∧
    (∀ t, t < closes.length → 14 ≤ t →
      (ewmRec (1 / 14) ((diffs closes).map (fun d => max (-d) 0))).getD (t - 1) 0 = 0 →
      (rsi closes).getD t none = none) ∧
    (∀ t x, (rsi closes).getD t none = some x → 0 ≤ x ∧ x ≤ 100) := by
  refine ⟨by simp [rsi], ?_, ?_, ?_⟩
  · intro t ht14
    by_cases ht : t < closes.length
    · rw [rsi, getD_range_map _ _ _ _ ht, if_neg (by omega)]
    · exact getD_opt_none_of_ge _ t (by simpa [rsi] using Nat.le_of_not_lt ht)
  · intro t ht h14 hzero
    rw [rsi, getD_range_map _ _ _ _ ht, if_pos h14, if_pos hzero]
  · intro t x hx
    by_cases ht : t < closes.length
    · rw [rsi, getD_range_map _ _ _ _ ht] at hx
      by_cases h14 : 14 ≤ t
      · rw [if_pos h14] at hx
        by_cases hz : (ewmRec (1 / 14)
            ((diffs closes).map (fun d => max (-d) 0))).getD (t - 1) 0 = 0
        · rw [if_pos hz] at hx
          exact absurd hx (by simp)
        · rw [if_neg hz] at hx
          have hxval := Option.some.inj hx
          have hg : 0 ≤ (ewmRec (1 / 14)
              ((diffs closes).map (fun d => max d 0))).getD (t - 1) 0 := by
            apply getD_nonneg
            apply ewmRec_nonneg (1 / 14) (by norm_num) (by norm_num)
            intro y hy
            rcases List.mem_map.mp hy with ⟨d, _, rfl⟩
            exact le_max_right d 0
          have hl : 0 ≤ (ewmRec (1 / 14)
              ((diffs closes).map (fun d => max (-d) 0))).getD (t - 1) 0 := by
            apply getD_nonneg
            apply ewmRec_nonneg (1 / 14) (by norm_num) (by norm_num)
            intro y hy
            rcases List.mem_map.mp hy with ⟨d, _, rfl⟩
            exact le_max_right (-d) 0
          have hlpos : 0 < (ewmRec (1 / 14)
              ((diffs closes).map (fun d => max (-d) 0))).getD (t - 1) 0 :=
            lt_of_le_of_ne hl (Ne.symm hz)
          have hrs : 0 ≤ (ewmRec (1 / 14)
                ((diffs closes).map (fun d => max d 0))).getD (t - 1) 0 /
              (ewmRec (1 / 14)
                ((diffs closes).map (fun d => max (-d) 0))).getD (t - 1) 0 :=
            div_nonneg hg hl
          have hfrac1 : 0 < 100 / (1 + (ewmRec (1 / 14)
                ((diffs closes).map (fun d => max d 0))).getD (t - 1) 0 /
              (ewmRec (1 / 14)
                ((diffs closes).map (fun d => max (-d) 0))).getD (t - 1) 0) :=
            div_pos (by norm_num) (by linarith)
          have hfrac2 : 100 / (1 + (ewmRec (1 / 14)
                ((diffs closes).map (fun d => max d 0))).getD (t - 1) 0 /
              (ewmRec (1 / 14)
                ((diffs closes).map (fun d => max (-d) 0))).getD (t - 1) 0) ≤ 100 :=
            div_le_self (by norm_num) (by linarith)
          constructor
          · rw [← hxval]; linarith
          · rw [← hxval]; linarith
      · rw [if_neg h14] at hx
        exact absurd hx (by simp)
    · rw [getD_opt_none_of_ge _ t (by simpa [rsi] using Nat.le_of_not_lt ht)] at hx
      exact absurd hx (by simp)

/-- Strictly decreasing 15-observation close series used as the C4 witness:
every delta is a loss, so at index 14 the smoothed gain is 0, the smoothed
loss is 1, and the RSI is exactly 0. -/
def rsiClosesW : List ℚ := [15, 14, 13, 12, 11, 10, 9, 8, 7, 6, 5, 4, 3, 2, 1]

/-- Witness for C4 at the first defined index of `rsiClosesW`. -/
theorem C4_rsi_witness :
    ((rsi rsiClosesW).getD 14 none = some 0) ∧ (0 ≤ (0 : ℚ) ∧ (0 : ℚ) ≤ 100) :=
  ⟨by with_unfolding_all decide,
    (C4_rsi_warmup_guard_and_bounds rsiClosesW).2.2.2 14 0
      (by with_unfolding_all decide)⟩

theorem perTicker_hi52dDist (bars : List Bar) (i : ℕ) (h : i < bars.length) :
    ((perTicker bars).getD i dFeat).hi52dDist =
      ((rollMax252 (bars.map (fun b => b.close))).getD i none).map
        (fun m => (bars.getD i dBar).close / m - 1) := by
  simp only [perTicker]
  rw [getD_range_map _ _ _ _ h]

theorem perTicker_lo52dDist (bars : List Bar) (i : ℕ) (h : i < bars.length) :
    ((perTicker bars).getD i dFeat).lo52dDist =
      ((rollMin252 (bars.map (fun b => b.close))).getD i none).map
        (fun m => (bars.getD i dBar).close / m - 1) := by
  simp only [perTicker]
  rw [getD_range_map _ _ _ _ h]

theorem rollMax252_getD (closes : List ℚ) (i : ℕ) (h : i < closes.length) :
    (rollMax252 closes).getD i none =
      if 20 ≤ ((closes.take (i + 1)).drop (i + 1 - 252)).length then
        some (foldMax ((closes.take (i + 1)).drop (i + 1 - 252)))
      else none := by
  simp only [rollMax252]
  rw [getD_range_map _ _ _ _ h]

theorem rollMin252_getD (closes : List ℚ) (i : ℕ) (h : i < closes.length) :
    (rollMin252 closes).getD i none =
      if 20 ≤ ((closes.take (i + 1)).drop (i + 1 - 252)).length then
        some (foldMin ((closes.take (i + 1)).drop (i + 1 - 252)))
      else none := by
  simp only [rollMin252]
  rw [getD_range_map _ _ _ _ h]

theorem window_length_252 (closes : List ℚ) (i : ℕ) (h : i < closes.length) :
    (20 ≤ ((closes.take (i + 1)).drop (i + 1 - 252)).length) ↔ 19 ≤ i := by
  rw [List.length_drop, List.length_take,
    Nat.min_eq_left (by omega : i + 1 ≤ closes.length)]
  omega

theorem getD_map_close (g : List Bar) (i : ℕ) (h : i < g.length) :
    (g.map (fun b => b.close)).getD i 0 = (g.getD i dBar).close := by
  rw [List.getD_eq_getElem?_getD, List.getElem?_map, List.getD_eq_getElem?_getD,
    List.getElem?_eq_getElem h]
  rfl

/-- C5: for every ticker group of the `_compute_features` output, under
positive closes, `hi52d_dist` and `lo52d_dist` are defined exactly from the
20th observation of that ticker onward (the 252-observation rolling extremes
require `min_periods=20`), and wherever defined
`hi52d_dist = close/hi52d - 1 ≤ 0` and `lo52d_dist = close/lo52d - 1 ≥ 0`,
because the rolling window includes the current close. -/
theorem C5_52wk_distance_signs (df : List Bar) (t : String)
    (hpos : ∀ b ∈ df, b.ticker = t → 0 < b.close) (i : ℕ)
    (hlen : i < ((computeFeatures df).filter
      (fun r => decide (r.ticker = t))).length) :
    ((((computeFeatures df).filter (fun r => decide (r.ticker = t))).getD i
        dFeat).hi52dDist.isSome = true ↔ 19 ≤ i) ∧
    ((((computeFeatures df).filter (fun r => decide (r.ticker = t))).getD i
        dFeat).lo52dDist.isSome = true ↔ 19 ≤ i) ∧
    (∀ v, (((computeFeatures df).filter (fun r => decide (r.ticker = t))).getD i
        dFeat).hi52dDist = some v → v ≤ 0) ∧
    (∀ v, (((computeFeatures df).filter (fun r => decide (r.ticker = t))).getD i
        dFeat).lo52dDist = some v → 0 ≤ v) := by
  rw [computeFeatures_filter_group] at hlen ⊢
  have hgl : i < ((sortBars df).filter (fun b => decide (b.ticker = t))).length := by
    rwa [perTicker_length] at hlen
  have hclen : i <
      (((sortBars df).filter (fun b => decide (b.ticker = t))).map
        (fun b => b.close)).length := by
    simpa using hgl
  have hposall : ∀ x ∈ ((sortBars df).filter (fun b => decide (b.ticker = t))).map
      (fun b => b.close), 0 < x := by
    intro x hx
    rcases List.mem_map.mp hx with ⟨b, hb, rfl⟩
    have hb1 : b ∈ sortBars df := List.mem_of_mem_filter hb
    have hbt : b.ticker = t := by simpa using List.of_mem_filter hb
    exact hpos b (by simpa [sortBars] using hb1) hbt
  have hwlen := window_length_252
    (((sortBars df).filter (fun b => decide (b.ticker = t))).map (fun b => b.close))
    i hclen
  have hcmem : (((sortBars df).filter (fun b => decide (b.ticker = t))).map
      (fun b => b.close)).getD i 0 ∈
      (((((sortBars df).filter (fun b => decide (b.ticker = t))).map
        (fun b => b.close)).take (i + 1)).drop (i + 1 - 252)) :=
    getD_mem_drop_take _ i (i + 1 - 252) (by omega) hclen
  have hcpos : 0 < (((sortBars df).filter (fun b => decide (b.ticker = t))).map
      (fun b => b.close)).getD i 0 :=
    hposall _ (getD_mem_of_lt _ i 0 hclen)
  have hhi : (((perTicker ((sortBars df).filter
        (fun b => decide (b.ticker = t)))).getD i dFeat).hi52dDist) =
      if 19 ≤ i then
        some (((((sortBars df).filter (fun b => decide (b.ticker = t))).getD i
            dBar).close) /
          foldMax ((((((sortBars df).filter (fun b => decide (b.ticker = t))).map
            (fun b => b.close)).take (i + 1)).drop (i + 1 - 252))) - 1)
      else none := by
    rw [perTicker_hi52dDist _ i hgl, rollMax252_getD _ i hclen]
    by_cases h19 : 19 ≤ i
    · rw [if_pos (hwlen.mpr h19), if_pos h19]
      rfl
    · rw [if_neg (fun hc => h19 (hwlen.mp hc)), if_neg h19]
      rfl
  have hlo : (((perTicker ((sortBars df).filter
        (fun b => decide (b.ticker = t)))).getD i dFeat).lo52dDist) =
      if 19 ≤ i then
        some (((((sortBars df).filter (fun b => decide (b.ticker = t))).getD i
            dBar).close) /
          foldMin ((((((sortBars df).filter (fun b => decide (b.ticker = t))).map
            (fun b => b.close)).take (i + 1)).drop (i + 1 - 252))) - 1)
      else none := by
    rw [perTicker_lo52dDist _ i hgl, rollMin252_getD _ i hclen]
    by_cases h19 : 19 ≤ i
    · rw [if_pos (hwlen.mpr h19), if_pos h19]
      rfl
    · rw [if_neg (fun hc => h19 (hwlen.mp hc)), if_neg h19]
      rfl
  refine ⟨?_, ?_, ?_, ?_⟩
  · rw [hhi]
    by_cases h19 : 19 ≤ i
    · simp [h19]
    · simp [h19]
  · rw [hlo]
    by_cases h19 : 19 ≤ i
    · simp [h19]
    · simp [h19]
  · intro v hv
    rw [hhi] at hv
    by_cases h19 : 19 ≤ i
    · rw [if_pos h19] at hv
      have hveq := Option.some.inj hv
      have hle : (((sortBars df).filter (fun b => decide (b.ticker = t))).map
          (fun b => b.close)).getD i 0 ≤
          foldMax ((((((sortBars df).filter (fun b => decide (b.ticker = t))).map
            (fun b => b.close)).take (i + 1)).drop (i + 1 - 252))) :=
        le_foldMax _ _ hcmem
      have hmaxpos : 0 <
          foldMax ((((((sortBars df).filter (fun b => decide (b.ticker = t))).map
            (fun b => b.close)).take (i + 1)).drop (i + 1 - 252))) :=
        lt_of_lt_of_le hcpos hle
      rw [getD_map_close _ i hgl] at hle hcpos
      have hdiv : (((sortBars df).filter (fun b => decide (b.ticker = t))).getD i
          dBar).close /
          foldMax ((((((sortBars df).filter (fun b => decide (b.ticker = t))).map
            (fun b => b.close)).take (i + 1)).drop (i + 1 - 252))) ≤ 1 :=
        (div_le_one hmaxpos).mpr hle
      rw [← hveq]
      linarith
    · rw [if_neg h19] at hv
      exact absurd hv (by simp)
  · intro v hv
    rw [hlo] at hv
    by_cases h19 : 19 ≤ i
    · rw [if_pos h19] at hv
      have hveq := Option.some.inj hv
      have hge : foldMin ((((((sortBars df).filter
            (fun b => decide (b.ticker = t))).map
            (fun b => b.close)).take (i + 1)).drop (i + 1 - 252))) ≤
          (((sortBars df).filter (fun b => decide (b.ticker = t))).map
            (fun b => b.close)).getD i 0 :=
        foldMin_le _ _ hcmem
      have hminpos : 0 <
          foldMin ((((((sortBars df).filter (fun b => decide (b.ticker = t))).map
            (fun b => b.close)).take (i + 1)).drop (i + 1 - 252))) := by
        apply foldMin_pos
        · intro hcontr
          rw [hcontr] at hcmem
          simp at hcmem
        · intro x hx
          exact hposall x (mem_of_mem_drop_take _ i (i + 1 - 252) x hx)
      rw [getD_map_close _ i hgl] at hge
      have hdiv : 1 ≤ (((sortBars df).filter (fun b => decide (b.ticker = t))).getD i
          dBar).close /
          foldMin ((((((sortBars df).filter (fun b => decide (b.ticker = t))).map
            (fun b => b.close)).take (i + 1)).drop (i + 1 - 252))) :=
        (one_le_div hminpos).mpr hge
      rw [← hveq]
      linarith
    · rw [if_neg h19] at hv
      exact absurd hv (by simp)

/-- 20 bars of ticker `"A"` at constant positive close, the C5 witness
input: at group index 19 the rolling extremes first become defined and both
distances are exactly 0. -/
def barsW5 : List Bar := (List.range 20).map (fun i => ⟨"A", (i : ℤ), 1⟩)

/-- Witness for C5 at the 20th observation of `barsW5`. -/
theorem C5_52wk_witness :
    ((∀ b ∈ barsW5, b.ticker = "A" → 0 < b.close) ∧
      19 < ((computeFeatures barsW5).filter
        (fun r => decide (r.ticker = "A"))).length) ∧
    (((((computeFeatures barsW5).filter (fun r => decide (r.ticker = "A"))).getD 19
        dFeat).hi52dDist.isSome = true ↔ 19 ≤ 19) ∧
    ((((computeFeatures barsW5).filter (fun r => decide (r.ticker = "A"))).getD 19
        dFeat).lo52dDist.isSome = true ↔ 19 ≤ 19) ∧
    (∀ v, (((computeFeatures barsW5).filter (fun r => decide (r.ticker = "A"))).getD 19
        dFeat).hi52dDist = some v → v ≤ 0) ∧
    (∀ v, (((computeFeatures barsW5).filter (fun r => decide (r.ticker = "A"))).getD 19
        dFeat).lo52dDist = some v → 0 ≤ v)) :=
  ⟨⟨by with_unfolding_all decide, by with_unfolding_all decide⟩,
    C5_52wk_distance_signs barsW5 "A" (by with_unfolding_all decide) 19
      (by with_unfolding_all decide)⟩

theorem perTicker_r1 (bars : List Bar) (i : ℕ) (h : i < bars.length) :
    ((perTicker bars).getD i dFeat).r1 =
      (pctChange 1 (bars.map (fun b => b.close))).getD i none := by
  simp only [perTicker]
  rw [getD_range_map _ _ _ _ h]

theorem perTicker_r5 (bars : List Bar) (i : ℕ) (h : i < bars.length) :
    ((perTicker bars).getD i dFeat).r5 =
      (pctChange 5 (bars.map (fun b => b.close))).getD i none := by
  simp only [perTicker]
  rw [getD_range_map _ _ _ _ h]

theorem perTicker_r20 (bars : List Bar) (i : ℕ) (h : i < bars.length) :
    ((perTicker bars).getD i dFeat).r20 =
      (pctChange 20 (bars.map (fun b => b.close))).getD i none := by
  simp only [perTicker]
  rw [getD_range_map _ _ _ _ h]

theorem perTicker_vol20 (bars : List Bar) (i : ℕ) (h : i < bars.length) :
    ((perTicker bars).getD i dFeat).vol20Var =
      (rollingVar20 (pctChange 1 (bars.map (fun b => b.close)))).getD i none := by
  simp only [perTicker]
  rw [getD_range_map _ _ _ _ h]

theorem pctChange_getD_none (k : ℕ) (closes : List ℚ) (i : ℕ) (hik : i < k) :
    (pctChange k closes).getD i none = none := by
  by_cases h : i < closes.length
  · simp only [pctChange]
    rw [getD_range_map _ _ _ _ h, if_neg (by omega)]
  · exact getD_opt_none_of_ge _ i (by simpa [pctChange] using Nat.le_of_not_lt h)

theorem pct1_take_filterMap_le (closes : List ℚ) (m : ℕ) :
    (((pctChange 1 closes).take m).filterMap id).length ≤ m - 1 := by
  cases closes with
  | nil => simp [pctChange]
  | cons c cs =>
    have hhead : pctChange 1 (c :: cs) =
        none :: ((List.range cs.length).map (fun j =>
          if 1 ≤ j + 1 then
            some ((c :: cs).getD (j + 1) 0 / (c :: cs).getD (j + 1 - 1) 0 - 1)
          else none)) := by
      simp only [pctChange, List.length_cons]
      rw [List.range_succ_eq_map, List.map_cons, List.map_map]
      rfl
    rw [hhead]
    cases m with
    | zero => simp
    | succ m =>
      rw [List.take_succ_cons]
      have hdropnone :
          ((none :: (((List.range cs.length).map (fun j =>
            if 1 ≤ j + 1 then
              some ((c :: cs).getD (j + 1) 0 / (c :: cs).getD (j + 1 - 1) 0 - 1)
            else none)).take m)).filterMap (@id (Option ℚ))) =
          ((((List.range cs.length).map (fun j =>
            if 1 ≤ j + 1 then
              some ((c :: cs).getD (j + 1) 0 / (c :: cs).getD (j + 1 - 1) 0 - 1)
            else none)).take m).filterMap (@id (Option ℚ))) := by
        simp
      rw [hdropnone]
      calc ((((List.range cs.length).map (fun j =>
            if 1 ≤ j + 1 then
              some ((c :: cs).getD (j + 1) 0 / (c :: cs).getD (j + 1 - 1) 0 - 1)
            else none)).take m).filterMap (@id (Option ℚ))).length
          ≤ (((List.range cs.length).map (fun j =>
            if 1 ≤ j + 1 then
              some ((c :: cs).getD (j + 1) 0 / (c :: cs).getD (j + 1 - 1) 0 - 1)
            else none)).take m).length := List.length_filterMap_le _ _
        _ ≤ m := List.length_take_le _ _
        _ = m + 1 - 1 := by omega

theorem rollingVar20_pct1_none (closes : List ℚ) (i : ℕ) (hi20 : i < 20) :
    (rollingVar20 (pctChange 1 closes)).getD i none = none := by
  by_cases h : i < (pctChange 1 closes).length
  · simp only [rollingVar20]
    rw [getD_range_map _ _ _ _ h]
    have h0 : i + 1 - 20 = 0 := by omega
    have hwin : window 20 (pctChange 1 closes) i =
        (pctChange 1 closes).take (i + 1) := by
      unfold window
      rw [h0, List.drop_zero]
    rw [hwin]
    have hle := pct1_take_filterMap_le closes (i + 1)
    rw [if_neg (by omega)]
  · exact getD_opt_none_of_ge _ i
      (by simpa [rollingVar20] using Nat.le_of_not_lt h)

/-- C7: `_compute_features` drops no row (the output length equals the input
length); the feature rows of each ticker are exactly the per-ticker
computation applied to that ticker's own (sorted) bars, so derived values for
one ticker never depend on another ticker's rows; and within one ticker's
group, `r_k` is null while fewer than `k` prior observations exist
(`k ∈ {1, 5, 20}`) and `vol20` is null until twenty `r1` values exist. -/
theorem C7_warmup_nulls_and_independence (df : List Bar) :
    ((computeFeatures df).length = df.length) ∧
    (∀ t, (computeFeatures df).filter (fun r => decide (r.ticker = t)) =
      perTicker ((sortBars df).filter (fun b => decide (b.ticker = t)))) ∧
    (∀ (bars : List Bar) (i : ℕ), i < bars.length →
      (i < 1 → ((perTicker bars).getD i dFeat).r1 = none) ∧
      (i < 5 → ((perTicker bars).getD i dFeat).r5 = none) ∧
      (i < 20 → ((perTicker bars).getD i dFeat).r20 = none) ∧
      (i < 20 → ((perTicker bars).getD i dFeat).vol20Var = none)) := by
  refine ⟨?_, fun t => computeFeatures_filter_group df t, ?_⟩
  · unfold computeFeatures
    rw [List.length_flatMap]
    have hmc : (dedupFirst ((sortBars df).map (fun b => b.ticker))).map
        (List.length ∘ (fun t =>
          perTicker ((sortBars df).filter (fun b => decide (b.ticker = t))))) =
        (dedupFirst ((sortBars df).map (fun b => b.ticker))).map
        (fun t => ((sortBars df).filter (fun b => decide (b.ticker = t))).length) := by
      apply List.map_congr_left
      intro t _
      simp [perTicker_length]
    rw [hmc, sum_groups_length Bar.ticker ((sortBars df).map (fun b => b.ticker))
      (sortBars df) (fun b hb => List.mem_map_of_mem _ hb)]
    simp [sortBars]
  · intro bars i hib
    refine ⟨?_, ?_, ?_, ?_⟩
    · intro h1
      rw [perTicker_r1 bars i hib]
      exact pctChange_getD_none 1 _ i h1
    · intro h5
      rw [perTicker_r5 bars i hib]
      exact pctChange_getD_none 5 _ i h5
    · intro h20
      rw [perTicker_r20 bars i hib]
      exact pctChange_getD_none 20 _ i h20
    · intro h20
      rw [perTicker_vol20 bars i hib]
      exact rollingVar20_pct1_none _ i h20

/-- Two-bar single-ticker input for the C7 witness. -/
def barsW7 : List Bar := [⟨"A", 0, 10⟩, ⟨"A", 1, 11⟩]

/-- Witness for C7: at the first observation of `barsW7`, `r1` is null. -/
theorem C7_warmup_witness :
    (0 < barsW7.length ∧ 0 < 1) ∧
    ((perTicker barsW7).getD 0 dFeat).r1 = none :=
  ⟨⟨by decide, by decide⟩,
    ((C7_warmup_nulls_and_independence barsW7).2.2 barsW7 0 (by decide)).1
      (by decide)⟩

/-! ### Baseline trainer (`train_nowcast.py`)

`_load_market` reads the Phase-2 parquet (file presence is an external
concern: the model receives the frame as a list of bars), sorts by
`(ticker, date)`, and builds the next-day return and binary target;
`train_baseline` merges buzz, applies `dropna(subset=["y"])`, and
time-splits before fitting. -/

/-- One labeled market row produced by `_load_market`. -/
structure MRow where
  ticker : String
  date : ℤ
  close : ℚ
  nextRet : Option ℚ
  y : ℤ
deriving DecidableEq

/-- `_load_market`: sort by `(ticker, date)`; compute the per-ticker
`pct_change()` of `close`; apply `.shift(-1)` to the whole resulting column
(the shift is not grouped, but the first row of each following ticker group
holds a null `pct_change`, so no return leaks across tickers); and set
`y = (next_ret > 0).astype(int)`, which is `0` — not null — when `next_ret`
is null, because `NaN > 0` evaluates to `False`. -/
def loadMarket (df : List Bar) : List MRow :=
  let pairs := (dedupFirst ((sortBars df).map (fun b => b.ticker))).flatMap (fun t =>
    ((sortBars df).filter (fun b => decide (b.ticker = t))).zip
      (pctChange 1 (((sortBars df).filter
        (fun b => decide (b.ticker = t))).map (fun b => b.close))))
  (List.range pairs.length).map (fun i =>
    ⟨(pairs.getD i (dBar, none)).1.ticker,
      (pairs.getD i (dBar, none)).1.date,
      (pairs.getD i (dBar, none)).1.close,
      (pairs.getD (i + 1) (dBar, none)).2,
      match (pairs.getD (i + 1) (dBar, none)).2 with
      | some v => if 0 < v then 1 else 0
      | none => 0⟩)

/-- One aggregated buzz row as `_load_buzz` returns it (key-unique after its
groupby). -/
structure BuzzAgg where
  date : ℤ
  ticker : String
  mentions : ℚ
  avgSentiment : ℚ
deriving DecidableEq

/-- One assembled training-frame row. -/
structure TRow where
  ticker : String
  date : ℤ
  close : ℚ
  nextRet : Option ℚ
  y : ℤ
  mentions : Option ℚ
  avgSentiment : Option ℚ
deriving DecidableEq

/-- Merge step of `train_baseline`: left-join the buzz aggregate on
`(date, ticker)` (unmatched market rows keep null buzz fields), or fill the
buzz columns with constant zeros when no buzz data is available. -/
def mergeBuzz (mkt : List MRow) (buzz : Option (List BuzzAgg)) : List TRow :=
  match buzz with
  | none => mkt.map (fun r =>
      ⟨r.ticker, r.date, r.close, r.nextRet, r.y, some 0, some 0⟩)
  | some bz => mkt.map (fun r =>
      match bz.find? (fun b => decide (b.date = r.date ∧ b.ticker = r.ticker)) with
      | some b =>
        ⟨r.ticker, r.date, r.close, r.nextRet, r.y, some b.mentions,
          some b.avgSentiment⟩
      | none => ⟨r.ticker, r.date, r.close, r.nextRet, r.y, none, none⟩)

/-- `df.dropna(subset=["y"])`: the `y` column is `(next_ret > 0).astype(int)`
— an integer column built from a boolean comparison in which `NaN > 0` is
`False` — so it holds no missing value and the filter keeps every row. -/
def dropnaY (df : List TRow) : List TRow := df.filter (fun _ => true)

/-- Weekday of an integer day index, day 0 being a Monday: 0–4 are business
days, 5–6 the weekend. -/
def wd (d : ℤ) : ℤ := d % 7

/-- The previous business day (pandas `BDay` stepping backwards): one
calendar day back, skipping over a weekend. -/
def prevBday (d : ℤ) : ℤ :=
  if wd (d - 1) ≤ 4 then d - 1
  else if wd (d - 2) ≤ 4 then d - 2
  else d - 3

/-- `date - BDay(n)`: the `n`-th business day strictly before `date`. -/
def bdaySub (d : ℤ) : ℕ → ℤ
  | 0 => d
  | n + 1 => bdaySub (prevBday d) n

/-- `df["date"].max()` (0 for the empty frame, where pandas yields `NaN`; in
both models the two split filters are then empty, the behavior the callers
observe). -/
def maxDate : List TRow → ℤ
  | [] => 0
  | r :: rs => (rs.map (fun x => x.date)).foldl max r.date

/-- `_time_split`: cutoff `max(date) - BDay(test_days)`; rows dated at or
before the cutoff train, strictly later rows are held out; no shuffling. -/
def timeSplit (df : List TRow) (testDays : ℕ) : List TRow × List TRow :=
  (df.filter (fun r => decide (r.date ≤ bdaySub (maxDate df) testDays)),
   df.filter (fun r => decide (bdaySub (maxDate df) testDays < r.date)))

/-- The feature-column list of `train_baseline`; the model's schema carries
every column, so the `feature_cols` emptiness guard never fires. -/
def featureCols : List String :=
  ["r1", "r5", "r20", "vol20", "rsi14", "hi52d_dist", "lo52d_dist",
   "mentions", "avg_sentiment"]

/-- Dataset assembly of `train_baseline` up to the point where the
classifiers are fitted: load market rows, merge buzz, drop null-`y` rows,
check the feature columns, time-split, and raise when either part is empty;
a returned pair is exactly what the two models are then fitted on. -/
def trainBaseline (df : List Bar) (buzz : Option (List BuzzAgg))
    (testDays : ℕ) : Except String (List TRow × List TRow) :=
  let full := dropnaY (mergeBuzz (loadMarket df) buzz)
  if featureCols = [] then
    Except.error "No feature columns found. Did Phase 2 create features?"
  else
    let parts := timeSplit full testDays
    if parts.1 = [] ∨ parts.2 = [] then
      Except.error "Not enough data after time split. Try a smaller test_days."
    else Except.ok parts

/-- C1 (code bug): with two bars of one ticker, `dropna(subset=["y"])`
removes nothing (it equals the merged frame), and the terminal row — whose
`next_ret` is undefined — stays in the dataset `train_baseline` fits on,
labeled `y = 0`, because `y = (next_ret > 0).astype(int)` is never null.
The code's own comment says this row is removed. -/
theorem C1_terminal_row_retained :
    dropnaY (mergeBuzz (loadMarket [⟨"A", 0, 10⟩, ⟨"A", 1, 11⟩]) none) =
      mergeBuzz (loadMarket [⟨"A", 0, 10⟩, ⟨"A", 1, 11⟩]) none ∧
    (dropnaY (mergeBuzz (loadMarket [⟨"A", 0, 10⟩, ⟨"A", 1, 11⟩]) none)).length = 2 ∧
    (⟨"A", 1, 11, none, 0, some 0, some 0⟩ : TRow) ∈
      dropnaY (mergeBuzz (loadMarket [⟨"A", 0, 10⟩, ⟨"A", 1, 11⟩]) none) := by
  with_unfolding_all decide

/-- C3: `_time_split` with cutoff `max(date) - N` business days returns
exactly the rows dated at or before the cutoff as the train part and the
strictly later rows as the holdout part; the parts partition the input,
preserve its row order (both are sublists, no shuffling), and every train
date is at most every holdout date. -/
theorem C3_time_split_order (df : List TRow) (n : ℕ) :
    (timeSplit df n).1 =
      df.filter (fun r => decide (r.date ≤ bdaySub (maxDate df) n)) ∧
    (timeSplit df n).2 =
      df.filter (fun r => decide (bdaySub (maxDate df) n < r.date)) ∧
    (∀ a ∈ (timeSplit df n).1, ∀ b ∈ (timeSplit df n).2, a.date ≤ b.date) ∧
    ((timeSplit df n).1.length + (timeSplit df n).2.length = df.length) ∧
    (timeSplit df n).1.Sublist df ∧ (timeSplit df n).2.Sublist df := by
  refine ⟨rfl, rfl, ?_, ?_, List.filter_sublist df, List.filter_sublist df⟩
  · intro a ha b hb
    have ha' : a.date ≤ bdaySub (maxDate df) n := by
      simpa using List.of_mem_filter ha
    have hb' : bdaySub (maxDate df) n < b.date := by
      simpa using List.of_mem_filter hb
    omega
  · have hco : df.filter (fun r =>
        !(decide (r.date ≤ bdaySub (maxDate df) n))) =
        df.filter (fun r => decide (bdaySub (maxDate df) n < r.date)) := by
      apply List.filter_congr
      intro r _
      by_cases hc : r.date ≤ bdaySub (maxDate df) n
      · have hnlt : ¬ bdaySub (maxDate df) n < r.date := not_lt.mpr hc
        simp [hc, hnlt]
      · have hlt : bdaySub (maxDate df) n < r.date := not_le.mp hc
        simp [hc, hlt]
    show (df.filter _).length + (df.filter _).length = df.length
    rw [← hco]
    exact length_filter_partition _ df

/-- Two rows around the cutoff used as the C3 witness: with `maxDate = 7`
(a Monday), one business day back lands on day 4 (Friday). -/
def splitRowsW : List TRow :=
  [⟨"A", 4, 1, none, 0, none, none⟩, ⟨"A", 7, 1, none, 0, none, none⟩]

/-- Witness for C3: the day-4 row trains, the day-7 row is held out, and the
train date is at most the holdout date. -/
theorem C3_time_split_witness :
    ((⟨"A", 4, 1, none, 0, none, none⟩ : TRow) ∈ (timeSplit splitRowsW 1).1 ∧
      (⟨"A", 7, 1, none, 0, none, none⟩ : TRow) ∈ (timeSplit splitRowsW 1).2) ∧
    (⟨"A", 4, 1, none, 0, none, none⟩ : TRow).date ≤
      (⟨"A", 7, 1, none, 0, none, none⟩ : TRow).date :=
  ⟨⟨by with_unfolding_all decide, by with_unfolding_all decide⟩,
    (C3_time_split_order splitRowsW 1).2.2.1 _ (by with_unfolding_all decide) _
      (by with_unfolding_all decide)⟩

/-- C8: `train_baseline` raises the explicit "Not enough data after time
split" error — and therefore fits no model — whenever the time split leaves
the training or the holdout partition empty, and a successful result always
carries two nonempty partitions (it never silently trains on empty data). -/
theorem C8_empty_split_error (df : List Bar) (buzz : Option (List BuzzAgg))
    (n : ℕ) :
    (((timeSplit (dropnaY (mergeBuzz (loadMarket df) buzz)) n).1 = [] ∨
        (timeSplit (dropnaY (mergeBuzz (loadMarket df) buzz)) n).2 = []) →
      trainBaseline df buzz n =
        Except.error "Not enough data after time split. Try a smaller test_days.") ∧
    (∀ tr te, trainBaseline df buzz n = Except.ok (tr, te) →
      tr ≠ [] ∧ te ≠ []) := by
  constructor
  · intro hempty
    simp only [trainBaseline]
    rw [if_neg (by decide), if_pos hempty]
  · intro tr te hok
    simp only [trainBaseline] at hok
    rw [if_neg (by decide)] at hok
    by_cases hempty : (timeSplit (dropnaY (mergeBuzz (loadMarket df) buzz)) n).1 = [] ∨
        (timeSplit (dropnaY (mergeBuzz (loadMarket df) buzz)) n).2 = []
    · rw [if_pos hempty] at hok
      exact absurd hok (by simp)
    · rw [if_neg hempty] at hok
      have hpair := Except.ok.inj hok
      push_neg at hempty
      refine ⟨fun htr => hempty.1 ?_, fun hte => hempty.2 ?_⟩
      · rw [hpair, htr]
      · rw [hpair, hte]

/-- Witness for C8: the empty market frame leaves both partitions empty and
`train_baseline` returns the explicit error. -/
theorem C8_empty_split_witness :
    ((timeSplit (dropnaY (mergeBuzz (loadMarket []) none)) 0).1 = [] ∨
      (timeSplit (dropnaY (mergeBuzz (loadMarket []) none)) 0).2 = []) ∧
    trainBaseline [] none 0 =
      Except.error "Not enough data after time split. Try a smaller test_days." :=
  ⟨by with_unfolding_all decide,
    (C8_empty_split_error [] none 0).1 (by with_unfolding_all decide)⟩

end QuantBot
